import Mathlib

/-!
# ExoExplorers: `src/earth_engine.js`

A shallow embedding of the Earth Engine export script and machine-checked
statements about the requests it issues.

The script runs against the Earth Engine client library.  Client objects
(`ee.Date`, `ee.Geometry`, `ee.ImageCollection`, `ee.Image`,
`ee.FeatureCollection`) are embedded by the value they denote: a calendar date,
or the expression tree that the client sends to the server.  Every library call
made inside `exportYearlyVIIRS` is an observable event that the platform may
answer by raising an error; a JavaScript exception unwinds the enclosing
`forEach`, since the script contains no `try`.

Years are JavaScript numbers holding integers (the script passes 2014 .. 2023)
and are embedded as `Int`.  `'VIIRS_India_' + year` uses `Number::toString`; a
JavaScript number is a double, and its rendering is the exact digit string of
the integer only in the safe-integer range, below `2 ^ 53` in absolute value.
The embedding of the rendering is exact on that range, and every statement
about how a year is rendered is made for years of that range.  The three
top-level `var` declarations only construct client objects and are embedded as
constants.
-/

namespace EarthEngine

/-! ## Values denoted by client objects -/

/-- A calendar date (midnight UTC), the value of an `ee.Date` built by `fromYMD`. -/
structure Date where
  year : Int
  month : Int
  day : Int
deriving DecidableEq, Repr

/-- Gregorian leap-year rule. -/
def isLeapYear (y : Int) : Bool :=
  (y % 4 == 0 && y % 100 != 0) || y % 400 == 0

/-- Number of days of month `m` in year `y`. -/
def daysInMonth (y m : Int) : Int :=
  if m = 2 then (if isLeapYear y then 29 else 28)
  else if m = 4 ∨ m = 6 ∨ m = 9 ∨ m = 11 then 30
  else 31

namespace Date

/-- A triple is a calendar date when month and day exist in the Gregorian calendar. -/
def valid (d : Date) : Prop :=
  1 ≤ d.month ∧ d.month ≤ 12 ∧ 1 ≤ d.day ∧ d.day ≤ daysInMonth d.year d.month

instance (d : Date) : Decidable d.valid := by
  unfold valid; infer_instance

/-- Chronological order of dates: `a` is strictly earlier than `b`. -/
def lt (a b : Date) : Prop :=
  a.year < b.year ∨ (a.year = b.year ∧
    (a.month < b.month ∨ (a.month = b.month ∧ a.day < b.day)))

/-- Chronological order of dates: `a` is not later than `b`. -/
def le (a b : Date) : Prop := a = b ∨ lt a b

instance : LT Date := ⟨lt⟩
instance : LE Date := ⟨le⟩

instance decLt (a b : Date) : Decidable (lt a b) := by
  unfold lt; infer_instance

instance decLe (a b : Date) : Decidable (le a b) := by
  unfold le; infer_instance

instance (a b : Date) : Decidable (a < b) := decLt a b

instance (a b : Date) : Decidable (a ≤ b) := decLe a b

/-- Modelled from the spec: the platform's `ee.Date.fromYMD(year, month, day)`,
which is not part of the repository; it denotes the date with these components. -/
def fromYMD (year month day : Int) : Date := ⟨year, month, day⟩

/-- Units of `advance`; the script passes only `'year'`. -/
inductive DateUnit where
  | year
deriving DecidableEq, Repr

/-- Modelled from the spec: the platform's `date.advance(delta, unit)`, which is
not part of the repository; with unit `'year'` it moves the year by `delta` and
keeps month and day, the day being clamped to the length of the month in the
new year. -/
def advance (d : Date) (delta : Int) : DateUnit → Date
  | DateUnit.year =>
    ⟨d.year + delta, d.month, min d.day (daysInMonth (d.year + delta) d.month)⟩

/-- A date lies in the half-open interval `[start, stop)`, the reading that
`filterDate(start, stop)` gives to its two arguments. -/
def inRange (d start stop : Date) : Prop := start ≤ d ∧ d < stop

instance (d start stop : Date) : Decidable (inRange d start stop) := by
  unfold inRange; infer_instance

end Date

/-- Value of `ee.Geometry.Rectangle(coords)`. -/
inductive Geometry where
  | Rectangle (coords : List Int)
deriving DecidableEq, Repr

/-- Expression tree of an `ee.ImageCollection`. -/
inductive ImageCollection where
  | load (id : String)
  | select (c : ImageCollection) (band : String)
  | filterDate (c : ImageCollection) (start stop : Date)
deriving DecidableEq, Repr

/-- Expression tree of an `ee.Image`. -/
inductive Image where
  | mean (c : ImageCollection)
  | clip (i : Image) (g : Geometry)
deriving DecidableEq, Repr

/-- Expression tree of an `ee.FeatureCollection`. -/
inductive FeatureCollection where
  | randomPoints (region : Geometry) (points : Int) (seed : Int)
  | sampleRegions (image : Image) (collection : FeatureCollection) (scale : Int)
      (geometries : Bool)
deriving DecidableEq, Repr

/-- Argument object of `ee.FeatureCollection.randomPoints`. -/
structure RandomPointsArgs where
  region : Geometry
  points : Int
  seed : Int
deriving DecidableEq, Repr

/-- Argument object of `image.sampleRegions`. -/
structure SampleRegionsArgs where
  collection : FeatureCollection
  scale : Int
  geometries : Bool
deriving DecidableEq, Repr

/-- Argument object of `Export.table.toDrive`: one export request. -/
structure ToDriveArgs where
  collection : FeatureCollection
  description : String
  fileFormat : String
deriving DecidableEq, Repr

/-! ## Library calls as events -/

/-- One call into the client library, with its arguments. -/
inductive Call where
  | fromYMD (year month day : Int)
  | advance (d : Date) (delta : Int) (unit : Date.DateUnit)
  | filterDate (c : ImageCollection) (start stop : Date)
  | mean (c : ImageCollection)
  | clip (i : Image) (g : Geometry)
  | randomPoints (args : RandomPointsArgs)
  | sampleRegions (i : Image) (args : SampleRegionsArgs)
  | toDrive (args : ToDriveArgs)
deriving DecidableEq, Repr

/-- The platform decides, from the calls made so far and the call being made,
whether that call raises an error (`some e`) or returns (`none`). -/
abbrev Platform := List Call → Call → Option String

/-- Outcome of running a piece of the script: the calls it made, in order, and
either its value or the error that unwound it. -/
structure Run (α : Type) where
  calls : List Call
  result : Except String α

/-- A computation of the script: given the platform and the calls made before
it starts, it yields its outcome. -/
def M (α : Type) : Type := Platform → List Call → Run α

/-- Returning a value makes no call. -/
def M.pure {α : Type} (a : α) : M α := fun _ _ => ⟨[], .ok a⟩

/-- Sequencing of statements: the second runs only when the first returned;
an error raised by the first unwinds past the second. -/
def M.bind {α β : Type} (m : M α) (f : α → M β) : M β := fun P h =>
  match m P h with
  | ⟨cs, .ok a⟩ =>
    match f a P (h ++ cs) with
    | ⟨cs2, r⟩ => ⟨cs ++ cs2, r⟩
  | ⟨cs, .error e⟩ => ⟨cs, .error e⟩

instance : Monad M where
  pure := M.pure
  bind := M.bind

/-- A library call `c` whose value, when the platform lets it return, is `v`. -/
def call {α : Type} (c : Call) (v : α) : M α := fun P h =>
  ⟨[c], match P h c with
        | none => .ok v
        | some e => .error e⟩

/-! ## The client library -/

namespace ee

/-- Client call `ee.Date.fromYMD(year, month, day)`. -/
def Date.fromYMD (year month day : Int) : M Date :=
  call (Call.fromYMD year month day) (EarthEngine.Date.fromYMD year month day)

/-- Client call `date.advance(delta, unit)`. -/
def Date.advance (d : EarthEngine.Date) (delta : Int) (unit : EarthEngine.Date.DateUnit) :
    M EarthEngine.Date :=
  call (Call.advance d delta unit) (d.advance delta unit)

/-- Client call `collection.filterDate(start, end)`. -/
def filterDate (c : ImageCollection) (start stop : EarthEngine.Date) : M ImageCollection :=
  call (Call.filterDate c start stop) (ImageCollection.filterDate c start stop)

/-- Client call `collection.mean()`. -/
def mean (c : ImageCollection) : M Image :=
  call (Call.mean c) (Image.mean c)

/-- Client call `image.clip(geometry)`. -/
def clip (i : Image) (g : Geometry) : M Image :=
  call (Call.clip i g) (Image.clip i g)

/-- Client call `ee.FeatureCollection.randomPoints(args)`. -/
def randomPoints (args : RandomPointsArgs) : M FeatureCollection :=
  call (Call.randomPoints args)
    (FeatureCollection.randomPoints args.region args.points args.seed)

/-- Client call `image.sampleRegions(args)`. -/
def sampleRegions (i : Image) (args : SampleRegionsArgs) : M FeatureCollection :=
  call (Call.sampleRegions i args)
    (FeatureCollection.sampleRegions i args.collection args.scale args.geometries)

/-- Client call `Export.table.toDrive(args)`: issues one export request. -/
def toDrive (args : ToDriveArgs) : M Unit :=
  call (Call.toDrive args) ()

/-- Modelled from the spec: the platform's `ee.List.sequence(start, end)` followed
by `getInfo()`, which are not part of the repository; the numbers `start`,
`start + 1`, ... up to `end` inclusive. -/
def sequence (start stop : Int) : List Int :=
  (List.range (stop + 1 - start).toNat).map (fun i => start + (i : Int))

end ee

/-! ## JavaScript primitives used by the script -/

/-- Character of the decimal digit `d`. -/
def digitChar (d : Nat) : Char := Char.ofNat (48 + d)

/-- Split a positive integer `x` as `s * 10 ^ z` with `s` not divisible by ten:
the digit source `s` and the count `z = n - k` of trailing zeros in
`Number::toString`. -/
def stripZeros : Nat → Nat → Nat × Nat
  | 0, x => (x, 0)
  | fuel + 1, x =>
    if x % 10 = 0 ∧ x ≠ 0 then
      ((stripZeros fuel (x / 10)).1, (stripZeros fuel (x / 10)).2 + 1)
    else (x, 0)

/-- Digits of `s`, most significant first, pushed in front of `acc`. -/
def digitsOf : Nat → Nat → List Char → List Char
  | 0, _, acc => acc
  | fuel + 1, s, acc =>
    if s = 0 then acc else digitsOf fuel (s / 10) (digitChar (s % 10) :: acc)

/-- The digits that `Number::toString` gives to a positive integer `x`: the `k`
digits of `s` followed by `n - k` zeros. -/
def positiveToString (x : Nat) : List Char :=
  digitsOf x (stripZeros x x).1 [] ++ List.replicate (stripZeros x x).2 '0'

/-- JavaScript `Number.isSafeInteger` on an integer value: the absolute value is
at most `2 ^ 53 - 1`, the range in which a double holds every integer exactly. -/
def isSafeInteger (x : Int) : Prop := x.natAbs < 9007199254740992

instance (x : Int) : Decidable (isSafeInteger x) := by
  unfold isSafeInteger; infer_instance

/-- JavaScript `Number::toString` on a safe integer, as `'VIIRS_India_' + year`
applies it to a year: `"0"` for zero, a minus sign in front of the rendering of
`-x` for a negative `x`, and for a positive `x` the digits of `s` followed by
`n - k` zeros.  Outside the safe-integer range JavaScript renders the shortest
digits that read back as the double, and from `1e21` on it writes an exponent;
this definition is exact for `isSafeInteger x` only. -/
def numberToString (x : Int) : String :=
  if x = 0 then "0"
  else if x < 0 then String.mk ('-' :: positiveToString x.natAbs)
  else String.mk (positiveToString x.natAbs)

/-- JavaScript `Array.prototype.forEach`: the callback runs on each element in
index order; an error raised by the callback ends the loop. -/
def forEach {α : Type} : List α → (α → M Unit) → M Unit
  | [], _ => M.pure ()
  | x :: xs, f => M.bind (f x) (fun _ => forEach xs f)

/-! ## The script -/

/-- Source: `var india = ee.Geometry.Rectangle([68, 6, 97, 37]);` -/
def india : Geometry := Geometry.Rectangle [68, 6, 97, 37]

/-- Source: `var viirsCollection = ee.ImageCollection(...).select('avg_rad');` -/
def viirsCollection : ImageCollection :=
  ImageCollection.select (ImageCollection.load "NOAA/VIIRS/DNB/MONTHLY_V1/VCMSLCFG") "avg_rad"

/-- Source: `function exportYearlyVIIRS(year)`. -/
def exportYearlyVIIRS (year : Int) : M Unit := do
  let start ← ee.Date.fromYMD year 1 1
  let stop ← ee.Date.advance start 1 Date.DateUnit.year
  let filtered ← ee.filterDate viirsCollection start stop
  let averaged ← ee.mean filtered
  let yearlyImage ← ee.clip averaged india
  let points ← ee.randomPoints { region := india, points := 5000, seed := year }
  let samples ← ee.sampleRegions yearlyImage
    { collection := points, scale := 500, geometries := true }
  ee.toDrive
    { collection := samples
      description := "VIIRS_India_" ++ numberToString year
      fileFormat := "CSV" }

/-- Source: `var years = ee.List.sequence(2014, 2023);` read through `getInfo()`. -/
def years : List Int := ee.sequence 2014 2023

/-- Source: `years.getInfo().forEach(function(y) { exportYearlyVIIRS(y); });` -/
def script : M Unit := forEach years (fun y => exportYearlyVIIRS y)

/-! ## Definitions used in the statements and proofs -/

/-- The export requests among a list of calls, in the order they were made. -/
def exports : List Call → List ToDriveArgs
  | [] => []
  | Call.toDrive a :: cs => a :: exports cs
  | _ :: cs => exports cs

/-- A platform on which no call raises. -/
def reliable : Platform := fun _ _ => none

/-- Straight-line run of a list of calls: each is made in turn until one raises. -/
def runCalls : List Call → M Unit
  | [] => M.pure ()
  | c :: cs => M.bind (call c ()) (fun _ => runCalls cs)

/-- The calls that `exportYearlyVIIRS year` makes when none raises, in order. -/
def yearCalls (year : Int) : List Call :=
  [ Call.fromYMD year 1 1,
    Call.advance ⟨year, 1, 1⟩ 1 Date.DateUnit.year,
    Call.filterDate viirsCollection ⟨year, 1, 1⟩ ⟨year + 1, 1, 1⟩,
    Call.mean (ImageCollection.filterDate viirsCollection ⟨year, 1, 1⟩ ⟨year + 1, 1, 1⟩),
    Call.clip
      (Image.mean (ImageCollection.filterDate viirsCollection ⟨year, 1, 1⟩ ⟨year + 1, 1, 1⟩))
      india,
    Call.randomPoints ⟨india, 5000, year⟩,
    Call.sampleRegions
      (Image.clip
        (Image.mean (ImageCollection.filterDate viirsCollection ⟨year, 1, 1⟩ ⟨year + 1, 1, 1⟩))
        india)
      ⟨FeatureCollection.randomPoints india 5000 year, 500, true⟩,
    Call.toDrive
      ⟨FeatureCollection.sampleRegions
        (Image.clip
          (Image.mean
            (ImageCollection.filterDate viirsCollection ⟨year, 1, 1⟩ ⟨year + 1, 1, 1⟩))
          india)
        (FeatureCollection.randomPoints india 5000 year) 500 true,
       "VIIRS_India_" ++ numberToString year, "CSV"⟩ ]

/-- No call of `cs` raises when `cs` is run after the calls `h`. -/
def quiet (P : Platform) : List Call → List Call → Prop
  | _, [] => True
  | h, c :: cs => P h c = none ∧ quiet P (h ++ [c]) cs

/-- Digit characters of `n` read off its base-ten digits, most significant first. -/
def digitString (n : Nat) : List Char := ((Nat.digits 10 n).reverse).map digitChar

/-- Value of a digit character. -/
def charVal (c : Char) : Nat := c.toNat - 48

/-- Reading a rendered integer back: a left inverse of `numberToString`. -/
def readNumber (s : String) : Int :=
  match s.data with
  | '-' :: cs => - (Nat.ofDigits 10 ((cs.map charVal).reverse) : Nat)
  | cs => (Nat.ofDigits 10 ((cs.map charVal).reverse) : Nat)

/-- The per-year request of the specification: the `avg_rad` band of the monthly
VIIRS collection over the date range `[start, stop)`, averaged and clipped to the
bounding box, sampled at scale 500 with geometries retained on 5000 random
points drawn in the bounding box with the given seed, exported as CSV under the
given description. -/
def requestTemplate (start stop : Date) (seed : Int) (description : String) : ToDriveArgs :=
  { collection :=
      FeatureCollection.sampleRegions
        (Image.clip
          (Image.mean
            (ImageCollection.filterDate
              (ImageCollection.select
                (ImageCollection.load "NOAA/VIIRS/DNB/MONTHLY_V1/VCMSLCFG") "avg_rad")
              start stop))
          (Geometry.Rectangle [68, 6, 97, 37]))
        (FeatureCollection.randomPoints (Geometry.Rectangle [68, 6, 97, 37]) 5000 seed)
        500 true
    description := description
    fileFormat := "CSV" }

/-- The request of the specification for year `Y`: date range from January 1 of
`Y` to January 1 of `Y + 1`, seed `Y`, description `VIIRS_India_<Y>`. -/
def specRequest (Y : Int) : ToDriveArgs :=
  requestTemplate ⟨Y, 1, 1⟩ ⟨Y + 1, 1, 1⟩ Y ("VIIRS_India_" ++ toString Y)

/-- A platform that refuses the export named `VIIRS_India_2016`. -/
def quotaAt2016 : Platform := fun _ c =>
  match c with
  | Call.toDrive a => if a.description = "VIIRS_India_2016" then some "quota exceeded" else none
  | _ => none

/-! ## Sequencing lemmas -/

theorem advance_jan1 (y : Int) :
    Date.advance ⟨y, 1, 1⟩ 1 Date.DateUnit.year = ⟨y + 1, 1, 1⟩ := by
  simp [Date.advance, daysInMonth]

theorem bind_call_none {α β : Type} (c : Call) (v : α) (f : α → M β) (P : Platform)
    (h : List Call) (hP : P h c = none) :
    M.bind (call c v) f P h = ⟨c :: (f v P (h ++ [c])).calls, (f v P (h ++ [c])).result⟩ := by
  simp [M.bind, call, hP]

theorem bind_call_some {α β : Type} (c : Call) (v : α) (f : α → M β) (P : Platform)
    (h : List Call) (e : String) (hP : P h c = some e) :
    M.bind (call c v) f P h = ⟨[c], Except.error e⟩ := by
  simp [M.bind, call, hP]

theorem bind_call_unit {α β : Type} (c : Call) (v : α) (f : α → M β) :
    M.bind (call c v) f = M.bind (call c ()) (fun _ => f v) := by
  funext P h
  cases hP : P h c with
  | none => rw [bind_call_none c v f P h hP, bind_call_none c () _ P h hP]
  | some e => rw [bind_call_some c v f P h e hP, bind_call_some c () _ P h e hP]

theorem bind_pure_unit (m : M Unit) : M.bind m (fun _ => M.pure ()) = m := by
  funext P h
  unfold M.bind M.pure
  rcases hm : m P h with ⟨cs, r⟩
  cases r with
  | ok a => simp
  | error e => simp

theorem exportYearlyVIIRS_eq_runCalls (Y : Int) :
    exportYearlyVIIRS Y = runCalls (yearCalls Y) := by
  simp only [exportYearlyVIIRS, yearCalls, runCalls, bind,
    ee.Date.fromYMD, ee.Date.advance, ee.filterDate, ee.mean, ee.clip, ee.randomPoints,
    ee.sampleRegions, ee.toDrive, Date.fromYMD]
  rw [bind_call_unit, bind_call_unit (Call.advance _ _ _), bind_call_unit (Call.filterDate _ _ _),
    bind_call_unit (Call.mean _), bind_call_unit (Call.clip _ _),
    bind_call_unit (Call.randomPoints _), bind_call_unit (Call.sampleRegions _ _),
    bind_pure_unit, advance_jan1]

/-! ## Straight-line runs -/

theorem runCalls_cons_none (P : Platform) (h : List Call) (c : Call) (cs : List Call)
    (hP : P h c = none) :
    runCalls (c :: cs) P h
      = ⟨c :: (runCalls cs P (h ++ [c])).calls, (runCalls cs P (h ++ [c])).result⟩ := by
  simp only [runCalls]
  rw [bind_call_none c () _ P h hP]

theorem runCalls_cons_some (P : Platform) (h : List Call) (c : Call) (cs : List Call)
    (e : String) (hP : P h c = some e) :
    runCalls (c :: cs) P h = ⟨[c], Except.error e⟩ := by
  simp only [runCalls]
  rw [bind_call_some c () _ P h e hP]

theorem quiet_append (P : Platform) (a b : List Call) :
    ∀ h, quiet P h (a ++ b) ↔ quiet P h a ∧ quiet P (h ++ a) b := by
  induction a with
  | nil => intro h; simp [quiet]
  | cons c cs ih =>
    intro h
    rw [List.cons_append]
    simp only [quiet, ih (h ++ [c]), List.append_assoc, List.singleton_append, and_assoc]

theorem runCalls_quiet (P : Platform) (cs : List Call) :
    ∀ h, quiet P h cs → runCalls cs P h = ⟨cs, Except.ok ()⟩ := by
  induction cs with
  | nil => intro h _; rfl
  | cons c cs ih =>
    intro h hq
    rw [runCalls_cons_none P h c cs hq.1, ih (h ++ [c]) hq.2]

theorem runCalls_raise (P : Platform) (c : Call) (post : List Call) (e : String)
    (pre : List Call) :
    ∀ h, quiet P h pre → P (h ++ pre) c = some e →
      runCalls (pre ++ c :: post) P h = ⟨pre ++ [c], Except.error e⟩ := by
  induction pre with
  | nil =>
    intro h _ hP
    rw [List.append_nil] at hP
    exact runCalls_cons_some P h c post e hP
  | cons d ds ih =>
    intro h hq hP
    rw [List.cons_append, runCalls_cons_none P h d _ hq.1]
    have hP2 : P (h ++ [d] ++ ds) c = some e := by
      rw [List.append_assoc]; exact hP
    rw [ih (h ++ [d]) hq.2 hP2]
    rfl

/-- Every straight-line run either makes all its calls, or stops at the first
call on which the platform raises. -/
theorem runCalls_cases (P : Platform) (cs : List Call) :
    ∀ h, quiet P h cs ∨ ∃ pre c post e, cs = pre ++ c :: post ∧ quiet P h pre ∧
      P (h ++ pre) c = some e := by
  induction cs with
  | nil => intro h; exact Or.inl trivial
  | cons c cs ih =>
    intro h
    cases hP : P h c with
    | some e =>
      exact Or.inr ⟨[], c, cs, e, rfl, trivial, by simpa using hP⟩
    | none =>
      rcases ih (h ++ [c]) with hq | ⟨pre, d, post, e, hcs, hq, hd⟩
      · exact Or.inl ⟨hP, hq⟩
      · refine Or.inr ⟨c :: pre, d, post, e, by rw [hcs]; rfl, ⟨hP, hq⟩, ?_⟩
        rw [← hd]; simp

theorem runCalls_ok (P : Platform) (cs h : List Call)
    (hok : (runCalls cs P h).result = Except.ok ()) : quiet P h cs := by
  rcases runCalls_cases P cs h with hq | ⟨pre, c, post, e, hcs, hq, hc⟩
  · exact hq
  · rw [hcs, runCalls_raise P c post e pre h hq hc] at hok
    cases hok

theorem runCalls_ok_calls (P : Platform) (cs h : List Call)
    (hok : (runCalls cs P h).result = Except.ok ()) : (runCalls cs P h).calls = cs := by
  rw [runCalls_quiet P cs h (runCalls_ok P cs h hok)]

/-! ## Monad laws and the loop -/

theorem pure_bind {α β : Type} (a : α) (f : α → M β) : M.bind (M.pure a) f = f a := by
  funext P h
  simp [M.bind, M.pure]

theorem bind_assoc {α β γ : Type} (m : M α) (f : α → M β) (g : β → M γ) :
    M.bind (M.bind m f) g = M.bind m (fun a => M.bind (f a) g) := by
  funext P h
  unfold M.bind
  rcases m P h with ⟨cs, r⟩
  cases r with
  | error e => rfl
  | ok a =>
    simp only
    rcases f a P (h ++ cs) with ⟨cs2, r2⟩
    cases r2 with
    | error e => rfl
    | ok b => simp [List.append_assoc]

theorem runCalls_append (a b : List Call) :
    runCalls (a ++ b) = M.bind (runCalls a) (fun _ => runCalls b) := by
  induction a with
  | nil => simp [runCalls, pure_bind]
  | cons c cs ih =>
    rw [List.cons_append]
    simp only [runCalls, ih, bind_assoc]

theorem forEach_runCalls {α : Type} (f : α → List Call) (xs : List α) :
    forEach xs (fun x => runCalls (f x)) = runCalls (xs.flatMap f) := by
  induction xs with
  | nil => rfl
  | cons x xs ih => simp only [forEach, List.flatMap_cons, runCalls_append, ih]

theorem forEach_exportYearlyVIIRS (ys : List Int) :
    forEach ys (fun y => exportYearlyVIIRS y) = runCalls (ys.flatMap yearCalls) := by
  rw [← forEach_runCalls]
  have hf : (fun y => exportYearlyVIIRS y) = fun y => runCalls (yearCalls y) :=
    funext exportYearlyVIIRS_eq_runCalls
  rw [hf]

theorem script_eq_runCalls : script = runCalls (years.flatMap yearCalls) :=
  forEach_exportYearlyVIIRS years

theorem years_eq : years = [2014, 2015, 2016, 2017, 2018, 2019, 2020, 2021, 2022, 2023] := by
  decide

/-! ## Rendering of integers -/

theorem digitChar_eq (d : Nat) (hd : d < 10) : digitChar d = Nat.digitChar d := by
  interval_cases d <;> rfl

theorem charVal_digitChar (d : Nat) (hd : d < 10) : charVal (digitChar d) = d := by
  interval_cases d <;> rfl

theorem digitChar_ne_minus (d : Nat) (hd : d < 10) : digitChar d ≠ '-' := by
  interval_cases d <;> decide

theorem digitsOf_eq (fuel : Nat) :
    ∀ (s : Nat) (acc : List Char), s ≤ fuel → digitsOf fuel s acc = digitString s ++ acc := by
  induction fuel with
  | zero =>
    intro s acc hs
    have h0 : s = 0 := by omega
    subst h0
    simp [digitsOf, digitString]
  | succ f ih =>
    intro s acc hs
    by_cases h0 : s = 0
    · subst h0
      simp [digitsOf, digitString]
    · have hpos : 0 < s := Nat.pos_of_ne_zero h0
      have hle : s / 10 ≤ f := by omega
      simp only [digitsOf, h0, if_false]
      rw [ih (s / 10) _ hle]
      simp [digitString, Nat.digits_def' (by decide : 1 < 10) hpos]

theorem stripZeros_digits (fuel : Nat) :
    ∀ x : Nat, Nat.digits 10 x
      = List.replicate (stripZeros fuel x).2 0 ++ Nat.digits 10 (stripZeros fuel x).1 := by
  induction fuel with
  | zero => intro x; simp [stripZeros]
  | succ f ih =>
    intro x
    by_cases hx : x % 10 = 0 ∧ x ≠ 0
    · have hpos : 0 < x := Nat.pos_of_ne_zero hx.2
      simp only [stripZeros, hx, ne_eq, not_false_eq_true, and_self, if_true]
      rw [List.replicate_succ, List.cons_append, ← ih (x / 10),
        Nat.digits_def' (by decide : 1 < 10) hpos, hx.1]
    · simp [stripZeros, hx]

theorem stripZeros_le (fuel : Nat) : ∀ x : Nat, (stripZeros fuel x).1 ≤ x := by
  induction fuel with
  | zero => intro x; simp [stripZeros]
  | succ f ih =>
    intro x
    by_cases hx : x % 10 = 0 ∧ x ≠ 0
    · simp only [stripZeros, hx, ne_eq, not_false_eq_true, and_self, if_true]
      exact le_trans (ih (x / 10)) (Nat.div_le_self x 10)
    · simp [stripZeros, hx]

/-- The split found by `stripZeros` is the one with the fewest digits: the digit
source of a positive integer does not end in zero. -/
theorem stripZeros_minimal (fuel : Nat) :
    ∀ x : Nat, 0 < x → x ≤ fuel → (stripZeros fuel x).1 % 10 ≠ 0 := by
  induction fuel with
  | zero => intro x h0 hx; omega
  | succ f ih =>
    intro x h0 hx
    by_cases hz : x % 10 = 0
    · have hne : x ≠ 0 := by omega
      simp only [stripZeros, hz, hne, ne_eq, not_false_eq_true, and_self, if_true]
      exact ih (x / 10) (by omega) (by omega)
    · simp [stripZeros, hz]

theorem positiveToString_eq (x : Nat) : positiveToString x = digitString x := by
  unfold positiveToString
  rw [digitsOf_eq x _ [] (stripZeros_le x x), List.append_nil]
  have hz : digitChar 0 = '0' := rfl
  conv_rhs => rw [digitString, stripZeros_digits x x]
  simp [digitString, hz]

theorem toDigitsCore_eq (fuel : Nat) :
    ∀ (n : Nat) (ds : List Char), 0 < n → n ≤ fuel →
      Nat.toDigitsCore 10 fuel n ds = digitString n ++ ds := by
  induction fuel with
  | zero => intro n ds h0 hn; omega
  | succ f ih =>
    intro n ds h0 hn
    have hd : n % 10 < 10 := Nat.mod_lt n (by decide)
    simp only [Nat.toDigitsCore]
    by_cases hq : n / 10 = 0
    · simp [hq, digitString, Nat.digits_def' (by decide : 1 < 10) h0, digitChar_eq _ hd]
    · have hq0 : 0 < n / 10 := Nat.pos_of_ne_zero hq
      have hle : n / 10 ≤ f := by omega
      simp only [hq, if_false]
      rw [ih (n / 10) _ hq0 hle]
      simp [digitString, Nat.digits_def' (by decide : 1 < 10) h0, digitChar_eq _ hd]

theorem repr_eq (n : Nat) (h0 : 0 < n) : Nat.repr n = String.mk (digitString n) := by
  simp only [Nat.repr, Nat.toDigits, List.asString]
  rw [toDigitsCore_eq (n + 1) n [] h0 (by omega), List.append_nil]

/-- On integers `Number::toString` is the usual decimal rendering. -/
theorem numberToString_eq_toString (x : Int) : numberToString x = toString x := by
  unfold numberToString
  cases x with
  | ofNat n =>
    by_cases h0 : n = 0
    · subst h0; rfl
    · have hne : (Int.ofNat n) ≠ 0 := by
        intro h; apply h0; exact Int.ofNat.inj h
      have hnn : ¬ (Int.ofNat n < 0) := not_lt.mpr (Int.ofNat_nonneg n)
      rw [if_neg hne, if_neg hnn]
      show String.mk (positiveToString n) = Nat.repr n
      rw [positiveToString_eq, repr_eq n (Nat.pos_of_ne_zero h0)]
  | negSucc m =>
    have hne : (Int.negSucc m) ≠ 0 := by intro h; cases h
    have hneg : Int.negSucc m < 0 := Int.negSucc_lt_zero m
    rw [if_neg hne, if_pos hneg]
    show String.mk ('-' :: positiveToString (m + 1)) = "-" ++ Nat.repr (m + 1)
    rw [positiveToString_eq, repr_eq (m + 1) (Nat.succ_pos m)]
    rfl

theorem digitString_vals (n : Nat) : ((digitString n).map charVal).reverse = Nat.digits 10 n := by
  unfold digitString
  rw [List.map_map, ← List.map_reverse, List.reverse_reverse]
  have hmap : ∀ l : List Nat, (∀ d ∈ l, d < 10) → l.map (charVal ∘ digitChar) = l := by
    intro l hl
    induction l with
    | nil => rfl
    | cons a t ih =>
      rw [List.map_cons, Function.comp_apply, charVal_digitChar a (hl a (List.mem_cons_self a t)),
        ih (fun d hd => hl d (List.mem_cons_of_mem a hd))]
  exact hmap _ (fun d hd => Nat.digits_lt_base (by decide) hd)

theorem digitString_head (n : Nat) (cs : List Char) : digitString n ≠ '-' :: cs := by
  intro h
  unfold digitString at h
  cases hr : (Nat.digits 10 n).reverse with
  | nil => rw [hr] at h; cases h
  | cons d t =>
    rw [hr, List.map_cons] at h
    have hmem : d ∈ Nat.digits 10 n := by
      rw [← List.mem_reverse, hr]; exact List.mem_cons_self d t
    have hd : d < 10 := Nat.digits_lt_base (by decide) hmem
    exact digitChar_ne_minus d hd (List.cons.inj h).1

theorem readNumber_numberToString (x : Int) : readNumber (numberToString x) = x := by
  unfold numberToString
  by_cases h0 : x = 0
  · subst h0; rfl
  · rw [if_neg h0]
    by_cases hneg : x < 0
    · rw [if_pos hneg, positiveToString_eq]
      simp only [readNumber]
      rw [digitString_vals, Nat.ofDigits_digits]
      omega
    · rw [if_neg hneg, positiveToString_eq]
      have hval : readNumber (String.mk (digitString x.natAbs))
          = (Nat.ofDigits 10 (((digitString x.natAbs).map charVal).reverse) : Nat) := by
        unfold readNumber
        split
        · next cs hcs => exact absurd hcs (digitString_head _ cs)
        · rfl
      rw [hval, digitString_vals, Nat.ofDigits_digits]
      omega

theorem numberToString_injective : Function.Injective numberToString := by
  intro a b hab
  rw [← readNumber_numberToString a, ← readNumber_numberToString b, hab]

theorem description_injective (a b : Int)
    (hab : "VIIRS_India_" ++ numberToString a = "VIIRS_India_" ++ numberToString b) : a = b := by
  apply numberToString_injective
  apply String.ext
  have hd := congrArg String.data hab
  rw [String.data_append, String.data_append] at hd
  exact List.append_cancel_left hd

/-! ## Calls made by one invocation -/

theorem runCalls_split (P : Platform) (cs h : List Call) :
    ∃ t, cs = (runCalls cs P h).calls ++ t := by
  rcases runCalls_cases P cs h with hq | ⟨pre, c, post, e, hcs, hq, hc⟩
  · exact ⟨[], by rw [runCalls_quiet P cs h hq, List.append_nil]⟩
  · refine ⟨post, ?_⟩
    rw [hcs, runCalls_raise P c post e pre h hq hc]
    simp

theorem mem_runCalls (P : Platform) (cs h : List Call) (c : Call)
    (hc : c ∈ (runCalls cs P h).calls) : c ∈ cs := by
  obtain ⟨t, ht⟩ := runCalls_split P cs h
  rw [ht]
  exact List.mem_append_left t hc

theorem mem_exportYearlyVIIRS (P : Platform) (h : List Call) (Y : Int) (c : Call)
    (hc : c ∈ (exportYearlyVIIRS Y P h).calls) : c ∈ yearCalls Y := by
  rw [exportYearlyVIIRS_eq_runCalls] at hc
  exact mem_runCalls P _ h c hc

theorem calls_exportYearlyVIIRS_ok (P : Platform) (h : List Call) (Y : Int)
    (hok : (exportYearlyVIIRS Y P h).result = Except.ok ()) :
    (exportYearlyVIIRS Y P h).calls = yearCalls Y := by
  rw [exportYearlyVIIRS_eq_runCalls] at hok ⊢
  exact runCalls_ok_calls P _ h hok

theorem quiet_reliable (cs : List Call) : ∀ h, quiet reliable h cs := by
  induction cs with
  | nil => intro h; trivial
  | cons c cs ih => intro h; exact ⟨rfl, ih (h ++ [c])⟩

theorem exportYearlyVIIRS_reliable (Y : Int) (h : List Call) :
    exportYearlyVIIRS Y reliable h = ⟨yearCalls Y, Except.ok ()⟩ := by
  rw [exportYearlyVIIRS_eq_runCalls]
  exact runCalls_quiet reliable _ h (quiet_reliable _ h)

theorem exports_append (a b : List Call) : exports (a ++ b) = exports a ++ exports b := by
  induction a with
  | nil => rfl
  | cons c cs ih => cases c <;> simp [exports, ih]

theorem mem_exports (cs : List Call) (a : ToDriveArgs) :
    a ∈ exports cs ↔ Call.toDrive a ∈ cs := by
  induction cs with
  | nil => simp [exports]
  | cons c cs ih => cases c <;> simp [exports, ih]

theorem exports_yearCalls (Y : Int) : exports (yearCalls Y) = [specRequest Y] := by
  simp [yearCalls, exports, specRequest, requestTemplate, viirsCollection, india,
    numberToString_eq_toString]

theorem exports_flatMap_yearCalls (ys : List Int) :
    exports (ys.flatMap yearCalls) = ys.map specRequest := by
  induction ys with
  | nil => rfl
  | cons y ys ih => rw [List.flatMap_cons, exports_append, exports_yearCalls, ih]; rfl

/-! ## Dates -/

theorem inRange_year (Y : Int) (d : Date) (hv : d.valid) :
    d.inRange ⟨Y, 1, 1⟩ ⟨Y + 1, 1, 1⟩ ↔ d.year = Y := by
  obtain ⟨y, m, dd⟩ := d
  obtain ⟨h1, _, h3, _⟩ := hv
  simp only at h1 h3
  show (Date.le _ _ ∧ Date.lt _ _) ↔ _
  simp only [Date.le, Date.lt, Date.mk.injEq]
  omega

theorem inRange_disjoint (Y1 Y2 : Int) (hne : Y1 ≠ Y2) (d : Date) :
    ¬ (d.inRange ⟨Y1, 1, 1⟩ ⟨Y1 + 1, 1, 1⟩ ∧ d.inRange ⟨Y2, 1, 1⟩ ⟨Y2 + 1, 1, 1⟩) := by
  obtain ⟨y, m, dd⟩ := d
  show ¬ ((Date.le _ _ ∧ Date.lt _ _) ∧ (Date.le _ _ ∧ Date.lt _ _))
  simp only [Date.le, Date.lt, Date.mk.injEq]
  omega

theorem inRange_cover (a b : Int) (d : Date) (hlo : (⟨a, 1, 1⟩ : Date) ≤ d)
    (hhi : d < (⟨b + 1, 1, 1⟩ : Date)) :
    ∃ Y, a ≤ Y ∧ Y ≤ b ∧ d.inRange ⟨Y, 1, 1⟩ ⟨Y + 1, 1, 1⟩ := by
  obtain ⟨y, m, dd⟩ := d
  change Date.le _ _ at hlo
  change Date.lt _ _ at hhi
  simp only [Date.le, Date.lt, Date.mk.injEq] at hlo hhi
  by_cases hm : 1 < m ∨ (m = 1 ∧ 1 ≤ dd)
  · refine ⟨y, by omega, by omega, ?_⟩
    show Date.le _ _ ∧ Date.lt _ _
    simp only [Date.le, Date.lt, Date.mk.injEq, true_and]
    omega
  · refine ⟨y - 1, by omega, by omega, ?_⟩
    show Date.le _ _ ∧ Date.lt _ _
    simp only [Date.le, Date.lt, Date.mk.injEq]
    omega

theorem mem_years (y : Int) : y ∈ years ↔ 2014 ≤ y ∧ y ≤ 2023 := by
  rw [years_eq]
  simp only [List.mem_cons, List.mem_singleton, List.not_mem_nil, or_false]
  omega

/-! ## Properties of the script -/

/-- C1: in every run of `exportYearlyVIIRS Y`, whatever the platform does, a call
to `filterDate` receives the start `fromYMD(Y, 1, 1)`, that is January 1 of `Y`,
and the end obtained by advancing the start by one year, that is January 1 of
`Y + 1`; a calendar date lies in the half-open interval from start to end exactly
when its year is `Y`; and a run that returns has made that call. -/
theorem exportYearlyVIIRS_date_range (P : Platform) (h : List Call) (Y : Int) :
    (∀ c s e, Call.filterDate c s e ∈ (exportYearlyVIIRS Y P h).calls →
      s = Date.fromYMD Y 1 1 ∧ e = s.advance 1 Date.DateUnit.year ∧
      s = ⟨Y, 1, 1⟩ ∧ e = ⟨Y + 1, 1, 1⟩ ∧
      ∀ d : Date, d.valid → (d.inRange s e ↔ d.year = Y)) ∧
    ((exportYearlyVIIRS Y P h).result = Except.ok () →
      ∃ c s e, Call.filterDate c s e ∈ (exportYearlyVIIRS Y P h).calls) := by
  constructor
  · intro c s e hmem
    have hy := mem_exportYearlyVIIRS P h Y _ hmem
    simp only [yearCalls, List.mem_cons, List.mem_singleton, Call.filterDate.injEq,
      List.not_mem_nil, or_false, false_or, reduceCtorEq] at hy
    obtain ⟨_, hs, he⟩ := hy
    subst hs he
    refine ⟨rfl, (advance_jan1 Y).symm, rfl, rfl, ?_⟩
    intro d hv
    exact inRange_year Y d hv
  · intro hok
    rw [calls_exportYearlyVIIRS_ok P h Y hok]
    exact ⟨viirsCollection, ⟨Y, 1, 1⟩, ⟨Y + 1, 1, 1⟩, by simp [yearCalls]⟩

theorem exportYearlyVIIRS_date_range_witness :
    Call.filterDate viirsCollection ⟨2014, 1, 1⟩ ⟨2015, 1, 1⟩
        ∈ (exportYearlyVIIRS 2014 reliable []).calls ∧
      ((⟨2014, 7, 15⟩ : Date).inRange ⟨2014, 1, 1⟩ ⟨2015, 1, 1⟩
        ↔ (⟨2014, 7, 15⟩ : Date).year = 2014) :=
  ⟨by decide,
   ((exportYearlyVIIRS_date_range reliable [] 2014).1 viirsCollection ⟨2014, 1, 1⟩
      ⟨2015, 1, 1⟩ (by decide)).2.2.2.2 ⟨2014, 7, 15⟩ (by decide)⟩

/-- C3: for every year `Y` of the safe-integer range, where JavaScript renders a
number by its exact digits, in every run of `exportYearlyVIIRS Y`, whatever the
platform does, the description of an export request is `VIIRS_India_` followed
by the decimal rendering of `Y`, and a run that returns has issued exactly one
export request; the years of the configured list are in that range, and in
every run of the script each export request is described `VIIRS_India_` followed
by the decimal rendering of a year of the list. -/
theorem exportYearlyVIIRS_description :
    (∀ (P : Platform) (h : List Call) (Y : Int), isSafeInteger Y →
      (∀ a, Call.toDrive a ∈ (exportYearlyVIIRS Y P h).calls →
        a.description = "VIIRS_India_" ++ toString Y) ∧
      ((exportYearlyVIIRS Y P h).result = Except.ok () →
        ∃ a, exports (exportYearlyVIIRS Y P h).calls = [a])) ∧
    (∀ y ∈ years, isSafeInteger y) ∧
    (∀ (P : Platform) (a : ToDriveArgs), Call.toDrive a ∈ (script P []).calls →
      ∃ y ∈ years, a.description = "VIIRS_India_" ++ toString y) := by
  refine ⟨?_, ?_, ?_⟩
  · intro P h Y _
    constructor
    · intro a hmem
      have hy := mem_exportYearlyVIIRS P h Y _ hmem
      simp only [yearCalls, List.mem_cons, List.mem_singleton, List.not_mem_nil, or_false,
        false_or, reduceCtorEq, Call.toDrive.injEq] at hy
      rw [hy, numberToString_eq_toString]
    · intro hok
      rw [calls_exportYearlyVIIRS_ok P h Y hok, exports_yearCalls]
      exact ⟨_, rfl⟩
  · rw [years_eq]; decide
  · intro P a hmem
    rw [script_eq_runCalls] at hmem
    have hm := mem_runCalls P _ [] _ hmem
    rw [List.mem_flatMap] at hm
    obtain ⟨y, hy, hc⟩ := hm
    simp only [yearCalls, List.mem_cons, List.mem_singleton, List.not_mem_nil, or_false,
      false_or, reduceCtorEq, Call.toDrive.injEq] at hc
    exact ⟨y, hy, by rw [hc, numberToString_eq_toString]⟩

theorem exportYearlyVIIRS_description_witness :
    isSafeInteger 2014 ∧
      Call.toDrive (specRequest 2014) ∈ (exportYearlyVIIRS 2014 reliable []).calls ∧
      (specRequest 2014).description = "VIIRS_India_2014" :=
  ⟨by decide, by decide,
   (exportYearlyVIIRS_description.1 reliable [] 2014 (by decide)).1 (specRequest 2014)
     (by decide)⟩

/-- C4: in every run of `exportYearlyVIIRS Y`, whatever the platform does, a
random-point request has seed `Y`, 5000 points and the region
`Rectangle([68, 6, 97, 37])`, and that region is the one every `clip` of the run
receives; a run that returns has made both calls. -/
theorem exportYearlyVIIRS_randomPoints (P : Platform) (h : List Call) (Y : Int) :
    (∀ args, Call.randomPoints args ∈ (exportYearlyVIIRS Y P h).calls →
      args.seed = Y ∧ args.points = 5000 ∧
      args.region = Geometry.Rectangle [68, 6, 97, 37] ∧ args.region = india ∧
      ∀ i g, Call.clip i g ∈ (exportYearlyVIIRS Y P h).calls → g = args.region) ∧
    ((exportYearlyVIIRS Y P h).result = Except.ok () →
      (∃ args, Call.randomPoints args ∈ (exportYearlyVIIRS Y P h).calls) ∧
      ∃ i g, Call.clip i g ∈ (exportYearlyVIIRS Y P h).calls) := by
  constructor
  · intro args hmem
    have hy := mem_exportYearlyVIIRS P h Y _ hmem
    simp only [yearCalls, List.mem_cons, List.mem_singleton, List.not_mem_nil, or_false,
      false_or, reduceCtorEq, Call.randomPoints.injEq] at hy
    subst hy
    refine ⟨rfl, rfl, rfl, rfl, ?_⟩
    intro i g hclip
    have hc := mem_exportYearlyVIIRS P h Y _ hclip
    simp only [yearCalls, List.mem_cons, List.mem_singleton, List.not_mem_nil, or_false,
      false_or, reduceCtorEq, Call.clip.injEq] at hc
    exact hc.2
  · intro hok
    rw [calls_exportYearlyVIIRS_ok P h Y hok]
    exact ⟨⟨_, by simp [yearCalls]; rfl⟩, ⟨_, _, by simp [yearCalls]; exact ⟨rfl, rfl⟩⟩⟩

theorem exportYearlyVIIRS_randomPoints_witness :
    Call.randomPoints ⟨Geometry.Rectangle [68, 6, 97, 37], 5000, 2019⟩
        ∈ (exportYearlyVIIRS 2019 reliable []).calls ∧
      (⟨Geometry.Rectangle [68, 6, 97, 37], 5000, 2019⟩ : RandomPointsArgs).seed = 2019 :=
  ⟨by decide,
   ((exportYearlyVIIRS_randomPoints reliable [] 2019).1
      ⟨Geometry.Rectangle [68, 6, 97, 37], 5000, 2019⟩ (by decide)).1⟩

/-- C6: in every run of `exportYearlyVIIRS Y`, whatever the platform does, the
sampling call has scale 500, keeps geometries and samples over the random-point
collection; the filtered collection is the `avg_rad` band of the monthly VIIRS
collection; an export request has file format `CSV` and is the fixed request
of the specification filled with the date range, the seed and the description of
the year, the only three places where the year enters. -/
theorem exportYearlyVIIRS_fixed_parameters (P : Platform) (h : List Call) (Y : Int) :
    (∀ i args, Call.sampleRegions i args ∈ (exportYearlyVIIRS Y P h).calls →
      args.scale = 500 ∧ args.geometries = true ∧
      args.collection = FeatureCollection.randomPoints india 5000 Y) ∧
    (∀ c s e, Call.filterDate c s e ∈ (exportYearlyVIIRS Y P h).calls →
      c = ImageCollection.select
        (ImageCollection.load "NOAA/VIIRS/DNB/MONTHLY_V1/VCMSLCFG") "avg_rad") ∧
    (∀ a, Call.toDrive a ∈ (exportYearlyVIIRS Y P h).calls →
      a.fileFormat = "CSV" ∧
      a = requestTemplate (Date.fromYMD Y 1 1)
            ((Date.fromYMD Y 1 1).advance 1 Date.DateUnit.year) Y
            ("VIIRS_India_" ++ toString Y)) ∧
    ((exportYearlyVIIRS Y P h).result = Except.ok () →
      exports (exportYearlyVIIRS Y P h).calls
        = [requestTemplate ⟨Y, 1, 1⟩ ⟨Y + 1, 1, 1⟩ Y ("VIIRS_India_" ++ toString Y)]) := by
  refine ⟨?_, ?_, ?_, ?_⟩
  · intro i args hmem
    have hy := mem_exportYearlyVIIRS P h Y _ hmem
    simp only [yearCalls, List.mem_cons, List.mem_singleton, List.not_mem_nil, or_false,
      false_or, reduceCtorEq, Call.sampleRegions.injEq] at hy
    obtain ⟨_, hargs⟩ := hy
    subst hargs
    exact ⟨rfl, rfl, rfl⟩
  · intro c s e hmem
    have hy := mem_exportYearlyVIIRS P h Y _ hmem
    simp only [yearCalls, List.mem_cons, List.mem_singleton, List.not_mem_nil, or_false,
      false_or, reduceCtorEq, Call.filterDate.injEq] at hy
    rw [hy.1]
    rfl
  · intro a hmem
    have hy := mem_exportYearlyVIIRS P h Y _ hmem
    simp only [yearCalls, List.mem_cons, List.mem_singleton, List.not_mem_nil, or_false,
      false_or, reduceCtorEq, Call.toDrive.injEq] at hy
    subst hy
    refine ⟨rfl, ?_⟩
    rw [numberToString_eq_toString]
    simp [requestTemplate, Date.fromYMD, advance_jan1, viirsCollection, india]
  · intro hok
    rw [calls_exportYearlyVIIRS_ok P h Y hok, exports_yearCalls]
    rfl

theorem exportYearlyVIIRS_fixed_parameters_witness :
    exports (exportYearlyVIIRS 2020 reliable []).calls
        = [requestTemplate ⟨2020, 1, 1⟩ ⟨2021, 1, 1⟩ 2020 "VIIRS_India_2020"] ∧
      (requestTemplate ⟨2020, 1, 1⟩ ⟨2021, 1, 1⟩ 2020 "VIIRS_India_2020").fileFormat = "CSV" :=
  ⟨(exportYearlyVIIRS_fixed_parameters reliable [] 2020).2.2.2 (by rfl), by decide⟩

theorem specRequest_injective : Function.Injective specRequest := by
  intro a b hab
  simp only [specRequest, requestTemplate, ToDriveArgs.mk.injEq,
    FeatureCollection.sampleRegions.injEq, FeatureCollection.randomPoints.injEq] at hab
  exact hab.1.2.1.2.2

theorem years_nodup : years.Nodup := by
  rw [years_eq]; decide

theorem script_calls_ok (P : Platform) (hok : (script P []).result = Except.ok ()) :
    (script P []).calls = years.flatMap yearCalls := by
  rw [script_eq_runCalls] at hok ⊢
  exact runCalls_ok_calls P _ [] hok

/-- C2: when the script runs to its end, its calls are those of one undisturbed
invocation of `exportYearlyVIIRS` per year of the configured list, in the order
of the list, and each such invocation issues exactly one export request; so the
export requests issued are, in order, the requests of the listed years; that
list is 2014, ..., 2023, strictly increasing, without repetition and without
gap; the request of a year determines the year, and the request of each listed
year was issued exactly once. -/
theorem script_one_export_per_year (P : Platform)
    (hok : (script P []).result = Except.ok ()) :
    (script P []).calls = years.flatMap (fun y => (exportYearlyVIIRS y reliable []).calls) ∧
    (∀ y : Int, exports (exportYearlyVIIRS y reliable []).calls = [specRequest y]) ∧
    exports (script P []).calls = years.map specRequest ∧
    years = [2014, 2015, 2016, 2017, 2018, 2019, 2020, 2021, 2022, 2023] ∧
    years.Pairwise (fun a b => a < b) ∧
    years.Nodup ∧
    (∀ y : Int, y ∈ years ↔ 2014 ≤ y ∧ y ≤ 2023) ∧
    Function.Injective specRequest ∧
    (∀ y ∈ years, (exports (script P []).calls).count (specRequest y) = 1) := by
  have hex : exports (script P []).calls = years.map specRequest := by
    rw [script_calls_ok P hok, exports_flatMap_yearCalls]
  have hinv : (fun y => (exportYearlyVIIRS y reliable []).calls) = yearCalls := by
    funext y
    rw [exportYearlyVIIRS_reliable]
  refine ⟨?_, ?_, hex, years_eq, ?_, years_nodup, mem_years, specRequest_injective, ?_⟩
  · rw [hinv]
    exact script_calls_ok P hok
  · intro y
    rw [exportYearlyVIIRS_reliable]
    exact exports_yearCalls y
  · rw [years_eq]; decide
  · intro y hy
    rw [hex, List.count_map_of_injective _ _ specRequest_injective]
    exact List.count_eq_one_of_mem years_nodup hy

theorem script_one_export_per_year_witness :
    (script reliable []).result = Except.ok () ∧
      exports (script reliable []).calls = years.map specRequest :=
  ⟨by rfl, (script_one_export_per_year reliable (by rfl)).2.2.1⟩

/-- C5: when the script runs to its end over the configured range 2014..2023 it
has issued exactly 10 export requests; the first is described `VIIRS_India_2014`
and the last `VIIRS_India_2023`. -/
theorem script_ten_exports (P : Platform)
    (hok : (script P []).result = Except.ok ()) :
    (exports (script P []).calls).length = 10 ∧
    (exports (script P []).calls).head?.map (fun a => a.description)
      = some "VIIRS_India_2014" ∧
    (exports (script P []).calls).getLast?.map (fun a => a.description)
      = some "VIIRS_India_2023" := by
  rw [script_calls_ok P hok, exports_flatMap_yearCalls, years_eq]
  refine ⟨rfl, ?_, ?_⟩
  · decide
  · decide

theorem script_ten_exports_witness :
    (script reliable []).result = Except.ok () ∧
      (exports (script reliable []).calls).length = 10 :=
  ⟨by rfl, (script_ten_exports reliable (by rfl)).1⟩

/-! ## Failure of a platform call -/

theorem flatMap_split {α β : Type} (f : α → List β) (c : β) (post : List β) :
    ∀ (xs : List α) (pre : List β), xs.flatMap f = pre ++ c :: post →
      ∃ before x after p q, xs = before ++ x :: after ∧ f x = p ++ c :: q ∧
        pre = before.flatMap f ++ p ∧ post = q ++ after.flatMap f := by
  intro xs
  induction xs with
  | nil =>
    intro pre hsplit
    simp at hsplit
  | cons x xs ih =>
    intro pre hsplit
    rw [List.flatMap_cons, List.append_eq_append_iff] at hsplit
    rcases hsplit with ⟨a, hpre, hrest⟩ | ⟨b, hfx, hrest⟩
    · obtain ⟨before, y, after, p, q, hxs, hfy, ha, hpost⟩ := ih a hrest
      refine ⟨x :: before, y, after, p, q, by rw [hxs]; rfl, hfy, ?_, hpost⟩
      rw [hpre, ha, List.flatMap_cons, List.append_assoc]
    · cases b with
      | nil =>
        rw [List.nil_append] at hrest
        rw [List.append_nil] at hfx
        obtain ⟨before, y, after, p, q, hxs, hfy, ha, hpost⟩ := ih [] hrest.symm
        refine ⟨x :: before, y, after, p, q, by rw [hxs]; rfl, hfy, ?_, hpost⟩
        rw [List.flatMap_cons, ← hfx, List.append_assoc, ← ha, List.append_nil]
      | cons d q =>
        rw [List.cons_append, List.cons.injEq] at hrest
        obtain ⟨hd, hpost⟩ := hrest
        subst hd
        exact ⟨[], x, xs, pre, q, rfl, hfx, rfl, hpost⟩

theorem yearCalls_split (Y : Int) (p q : List Call) (c : Call)
    (hsplit : yearCalls Y = p ++ c :: q) :
    exports p = [] ∧ (exports [c] = [] ∨ exports [c] = [specRequest Y]) := by
  have hex := exports_yearCalls Y
  rw [hsplit, exports_append] at hex
  have hc : exports [c] = [] ∨ exports [c] = [specRequest Y] := by
    cases c with
    | toDrive a =>
      right
      have hmem : a ∈ exports (yearCalls Y) := by
        rw [mem_exports, hsplit]; simp
      rw [exports_yearCalls, List.mem_singleton] at hmem
      rw [hmem]; rfl
    | _ => left; rfl
  refine ⟨?_, hc⟩
  by_contra hne
  obtain ⟨a, ha⟩ := List.exists_mem_of_ne_nil _ hne
  have ha2 : a ∈ exports p ++ exports (c :: q) := List.mem_append_left _ ha
  rw [hex, List.mem_singleton] at ha2
  subst ha2
  have hmemp : Call.toDrive (specRequest Y) ∈ p := (mem_exports p _).mp ha
  have hnot : Call.toDrive (specRequest Y) ∉ (yearCalls Y).dropLast := by
    simp [yearCalls, specRequest, requestTemplate]
  apply hnot
  rw [hsplit, List.dropLast_append_cons]
  exact List.mem_append_left _ hmemp

theorem runCalls_raised (P : Platform) (cs pre post : List Call) (c : Call) (e : String)
    (hcalls : (runCalls cs P []).calls = pre ++ c :: post) (hraise : P pre c = some e) :
    post = [] ∧ runCalls cs P [] = ⟨pre ++ [c], Except.error e⟩ ∧ quiet P [] pre ∧
      ∃ rest, cs = pre ++ c :: rest := by
  rcases runCalls_cases P cs [] with hq | ⟨pre2, c2, post2, e2, hcs, hq, hc2⟩
  · exfalso
    rw [runCalls_quiet P cs [] hq] at hcalls
    simp only at hcalls
    rw [hcalls, quiet_append] at hq
    have hnone := hq.2.1
    rw [List.nil_append] at hnone
    rw [hnone] at hraise
    cases hraise
  · have hrun := runCalls_raise P c2 post2 e2 pre2 [] hq hc2
    rw [← hcs] at hrun
    rw [hrun] at hcalls
    simp only at hcalls
    rw [List.nil_append] at hc2
    rcases List.eq_nil_or_concat post with hnil | ⟨L, b, hL⟩
    · subst hnil
      obtain ⟨hpre, hc⟩ := List.append_inj' hcalls rfl
      have hcc : c2 = c := by simpa using hc
      subst hpre hcc
      rw [hraise] at hc2
      cases hc2
      exact ⟨rfl, hrun, hq, post2, hcs⟩
    · exfalso
      have hre : pre ++ c :: post = (pre ++ c :: L) ++ [b] := by
        rw [hL]; simp
      rw [hre] at hcalls
      obtain ⟨hpre, _⟩ := List.append_inj' hcalls rfl
      rw [hpre, quiet_append] at hq
      have hnone := hq.2.1
      rw [List.nil_append] at hnone
      rw [hnone] at hraise
      cases hraise

/-- C7: if a call that the script makes raises an error on the platform, then
that call is the last call of the run and the script fails with that same error;
the call belongs to the invocation for one year of the list, the invocations for
the earlier years all returned, the requests of the earlier years were issued
exactly once each, the request of that year at most once, and no request of a
later year was issued; the request of a year is the one that an undisturbed
invocation for that year issues. -/
theorem script_error_propagates (P : Platform) (pre post : List Call) (c : Call) (e : String)
    (hcalls : (script P []).calls = pre ++ c :: post) (hraise : P pre c = some e) :
    post = [] ∧ (script P []).result = Except.error e ∧
    ∃ before Y after h0 p, years = before ++ Y :: after ∧ pre = h0 ++ p ∧
      forEach before (fun y => exportYearlyVIIRS y) P [] = ⟨h0, Except.ok ()⟩ ∧
      exportYearlyVIIRS Y P h0 = ⟨p ++ [c], Except.error e⟩ ∧
      exports (script P []).calls = before.map specRequest ++ exports [c] ∧
      (exports [c] = [] ∨ exports [c] = [specRequest Y]) ∧
      (∀ y ∈ before, (exports (script P []).calls).count (specRequest y) = 1) ∧
      (exports (script P []).calls).count (specRequest Y) ≤ 1 ∧
      (∀ y ∈ after, specRequest y ∉ exports (script P []).calls) ∧
      (∀ y : Int, exports (exportYearlyVIIRS y reliable []).calls = [specRequest y]) := by
  rw [script_eq_runCalls] at hcalls ⊢
  obtain ⟨hpost, hrun, hq, rest, hcs⟩ := runCalls_raised P _ pre post c e hcalls hraise
  obtain ⟨before, Y, after, p, q, hyears, hY, hpre, _⟩ :=
    flatMap_split yearCalls c rest years pre hcs
  have hnd : (before ++ Y :: after).Nodup := hyears ▸ years_nodup
  rw [List.nodup_append] at hnd
  obtain ⟨_, hndY, hdisj⟩ := hnd
  have hYa : Y ∉ after := (List.nodup_cons.mp hndY).1
  have hbY : Y ∉ before := fun hmem => hdisj hmem (List.mem_cons_self Y after)
  have hba : ∀ y ∈ after, y ∉ before := fun y hy hmem =>
    hdisj hmem (List.mem_cons_of_mem Y hy)
  have hndb : before.Nodup := by
    have h2 : (before ++ Y :: after).Nodup := hyears ▸ years_nodup
    exact (List.nodup_append.mp h2).1
  rw [hpre, quiet_append, List.nil_append] at hq
  obtain ⟨hqb, hqp⟩ := hq
  obtain ⟨hexp, hexc⟩ := yearCalls_split Y p q c hY
  have hexports : exports (runCalls (years.flatMap yearCalls) P []).calls
      = before.map specRequest ++ exports [c] := by
    rw [hrun]
    simp only
    rw [hpre, exports_append, exports_append, exports_flatMap_yearCalls, hexp, List.append_nil]
  have hcount : ∀ y, y ≠ Y → (exports [c]).count (specRequest y) = 0 := by
    intro y hne
    rcases hexc with h0 | h1
    · rw [h0]; rfl
    · rw [h1, List.count_singleton]
      have hsp : specRequest Y ≠ specRequest y := fun heq => hne (specRequest_injective heq).symm
      simp [hsp]
  refine ⟨hpost, by rw [hrun], before, Y, after, before.flatMap yearCalls, p, hyears, hpre,
    ?_, ?_, hexports, hexc, ?_, ?_, ?_, ?_⟩
  rotate_right
  · intro y
    rw [exportYearlyVIIRS_reliable]
    exact exports_yearCalls y
  · rw [forEach_exportYearlyVIIRS]
    exact runCalls_quiet P _ [] hqb
  · rw [exportYearlyVIIRS_eq_runCalls, hY]
    refine runCalls_raise P c q e p _ hqp ?_
    rw [← hpre]; exact hraise
  · intro y hy
    have hne : y ≠ Y := fun heq => hbY (heq ▸ hy)
    rw [hexports, List.count_append, hcount y hne,
      List.count_map_of_injective _ _ specRequest_injective,
      List.count_eq_one_of_mem hndb hy]
  · rw [hexports, List.count_append, List.count_map_of_injective _ _ specRequest_injective,
      List.count_eq_zero_of_not_mem hbY, Nat.zero_add]
    rcases hexc with h0 | h1
    · rw [h0]; exact Nat.zero_le _
    · rw [h1, List.count_singleton]; simp
  · intro y hy hmem
    rw [hexports, List.mem_append] at hmem
    have hne : y ≠ Y := fun heq => hYa (heq ▸ hy)
    rcases hmem with hm | hm
    · rw [List.mem_map] at hm
      obtain ⟨z, hz, hzy⟩ := hm
      rw [specRequest_injective hzy] at hz
      exact hba y hy hz
    · have h0 := hcount y hne
      rw [List.count_eq_zero] at h0
      exact h0 hm

theorem script_error_propagates_witness :
    (script quotaAt2016 []).result = Except.error "quota exceeded" ∧
      exports (script quotaAt2016 []).calls
        = [specRequest 2014, specRequest 2015, specRequest 2016] :=
  ⟨(script_error_propagates quotaAt2016
      (yearCalls 2014 ++ yearCalls 2015 ++ (yearCalls 2016).dropLast) []
      (Call.toDrive (specRequest 2016)) "quota exceeded" (by rfl) (by rfl)).2.1,
   by rfl⟩

/-- C8: the requests of `exportYearlyVIIRS Y` depend on `Y` alone: whatever two
platforms do and whatever was called before, two runs for the same year issue
the same export request, and when both return they made the same calls with the
same arguments; hence two runs of the loop over the same list of years that both
reach the end made the same calls and issued the same sequence of requests. -/
theorem exportYearlyVIIRS_deterministic :
    (∀ (P1 P2 : Platform) (h1 h2 : List Call) (Y : Int) (a1 a2 : ToDriveArgs),
      Call.toDrive a1 ∈ (exportYearlyVIIRS Y P1 h1).calls →
      Call.toDrive a2 ∈ (exportYearlyVIIRS Y P2 h2).calls → a1 = a2) ∧
    (∀ (P1 P2 : Platform) (h1 h2 : List Call) (Y : Int),
      (exportYearlyVIIRS Y P1 h1).result = Except.ok () →
      (exportYearlyVIIRS Y P2 h2).result = Except.ok () →
      (exportYearlyVIIRS Y P1 h1).calls = (exportYearlyVIIRS Y P2 h2).calls) ∧
    (∀ (ys : List Int) (P1 P2 : Platform) (h1 h2 : List Call),
      (forEach ys (fun y => exportYearlyVIIRS y) P1 h1).result = Except.ok () →
      (forEach ys (fun y => exportYearlyVIIRS y) P2 h2).result = Except.ok () →
      (forEach ys (fun y => exportYearlyVIIRS y) P1 h1).calls
          = (forEach ys (fun y => exportYearlyVIIRS y) P2 h2).calls ∧
        exports (forEach ys (fun y => exportYearlyVIIRS y) P1 h1).calls
          = exports (forEach ys (fun y => exportYearlyVIIRS y) P2 h2).calls) := by
  refine ⟨?_, ?_, ?_⟩
  · intro P1 P2 h1 h2 Y a1 a2 hm1 hm2
    have e1 := (mem_exports _ a1).mpr (mem_exportYearlyVIIRS P1 h1 Y _ hm1)
    have e2 := (mem_exports _ a2).mpr (mem_exportYearlyVIIRS P2 h2 Y _ hm2)
    rw [exports_yearCalls, List.mem_singleton] at e1 e2
    rw [e1, e2]
  · intro P1 P2 h1 h2 Y ok1 ok2
    rw [calls_exportYearlyVIIRS_ok P1 h1 Y ok1, calls_exportYearlyVIIRS_ok P2 h2 Y ok2]
  · intro ys P1 P2 h1 h2 ok1 ok2
    rw [forEach_exportYearlyVIIRS] at ok1 ok2 ⊢
    rw [runCalls_ok_calls P1 _ h1 ok1, runCalls_ok_calls P2 _ h2 ok2]
    exact ⟨rfl, rfl⟩

theorem exportYearlyVIIRS_deterministic_witness :
    (exportYearlyVIIRS 2014 reliable []).calls
      = (exportYearlyVIIRS 2014 quotaAt2016 (yearCalls 2013)).calls :=
  exportYearlyVIIRS_deterministic.2.1 reliable quotaAt2016 [] (yearCalls 2013) 2014
    (by rfl) (by rfl)

/-- C9: export descriptions are injective in the year: for two distinct integer
years of the safe-integer range, where a JavaScript number holds the integer
exactly and renders its exact digits, the strings `'VIIRS_India_' + Y1` and
`'VIIRS_India_' + Y2` differ, so requests issued by invocations for two such
years carry distinct descriptions; the years of the configured list are in that
range, and in every run of the script, whatever the platform does, the
descriptions of the issued requests are pairwise distinct. -/
theorem export_descriptions_injective :
    (∀ Y1 Y2 : Int, isSafeInteger Y1 → isSafeInteger Y2 → Y1 ≠ Y2 →
      "VIIRS_India_" ++ numberToString Y1 ≠ "VIIRS_India_" ++ numberToString Y2) ∧
    (∀ (P1 P2 : Platform) (h1 h2 : List Call) (Y1 Y2 : Int) (a1 a2 : ToDriveArgs),
      isSafeInteger Y1 → isSafeInteger Y2 → Y1 ≠ Y2 →
      Call.toDrive a1 ∈ (exportYearlyVIIRS Y1 P1 h1).calls →
      Call.toDrive a2 ∈ (exportYearlyVIIRS Y2 P2 h2).calls →
      a1.description ≠ a2.description) ∧
    (∀ y ∈ years, isSafeInteger y) ∧
    (∀ P : Platform,
      ((exports (script P []).calls).map (fun a => a.description)).Nodup) := by
  refine ⟨?_, ?_, ?_, ?_⟩
  · intro Y1 Y2 _ _ hne heq
    exact hne (description_injective Y1 Y2 heq)
  · intro P1 P2 h1 h2 Y1 Y2 a1 a2 _ _ hne hm1 hm2 heq
    have e1 := mem_exportYearlyVIIRS P1 h1 Y1 _ hm1
    have e2 := mem_exportYearlyVIIRS P2 h2 Y2 _ hm2
    simp only [yearCalls, List.mem_cons, List.mem_singleton, List.not_mem_nil, or_false,
      false_or, reduceCtorEq, Call.toDrive.injEq] at e1 e2
    rw [e1, e2] at heq
    exact hne (description_injective Y1 Y2 heq)
  · rw [years_eq]; decide
  · intro P
    obtain ⟨t, ht⟩ := runCalls_split P (years.flatMap yearCalls) []
    rw [script_eq_runCalls]
    have hall : ((years.map specRequest).map (fun a => a.description)).Nodup := by
      rw [List.map_map]
      refine List.Nodup.map ?_ years_nodup
      intro a b hab
      simp only [Function.comp_apply, specRequest, requestTemplate,
        ← numberToString_eq_toString] at hab
      exact description_injective a b hab
    rw [← exports_flatMap_yearCalls, ht, exports_append, List.map_append] at hall
    exact (List.nodup_append.mp hall).1

theorem export_descriptions_injective_witness :
    isSafeInteger 2014 ∧ isSafeInteger 2015 ∧
      "VIIRS_India_" ++ numberToString 2014 ≠ "VIIRS_India_" ++ numberToString 2015 :=
  ⟨by decide, by decide,
   export_descriptions_injective.1 2014 2015 (by decide) (by decide) (by decide)⟩

theorem mem_script_filterDate (P : Platform) (c : ImageCollection) (s e : Date)
    (hmem : Call.filterDate c s e ∈ (script P []).calls) :
    ∃ Y, Y ∈ years ∧ s = ⟨Y, 1, 1⟩ ∧ e = ⟨Y + 1, 1, 1⟩ := by
  rw [script_eq_runCalls] at hmem
  have hm := mem_runCalls P _ [] _ hmem
  rw [List.mem_flatMap] at hm
  obtain ⟨Y, hY, hc⟩ := hm
  simp only [yearCalls, List.mem_cons, List.mem_singleton, Call.filterDate.injEq,
    List.not_mem_nil, or_false, false_or, reduceCtorEq] at hc
  exact ⟨Y, hY, hc.2.1, hc.2.2⟩

/-- C10: the date ranges of the years tile the timeline: the end of the range
that `filterDate` receives for `Y` is the start of the range it receives for
`Y + 1`; the half-open ranges of two distinct years share no date; and when the
script runs to its end, every date from the first start, January 1 of 2014, up
to but excluding the last end, January 1 of 2024, lies in the range of a
`filterDate` call of the run, and in the range of no other. -/
theorem date_ranges_tile :
    (∀ (P1 P2 : Platform) (h1 h2 : List Call) (Y1 Y2 : Int) (c1 c2 : ImageCollection)
        (s1 e1 s2 e2 : Date),
      Call.filterDate c1 s1 e1 ∈ (exportYearlyVIIRS Y1 P1 h1).calls →
      Call.filterDate c2 s2 e2 ∈ (exportYearlyVIIRS Y2 P2 h2).calls →
      (Y2 = Y1 + 1 → e1 = s2) ∧
      (Y1 ≠ Y2 → ∀ d : Date, ¬ (d.inRange s1 e1 ∧ d.inRange s2 e2))) ∧
    (∀ P : Platform, (script P []).result = Except.ok () →
      ∀ d : Date, (⟨2014, 1, 1⟩ : Date) ≤ d → d < (⟨2024, 1, 1⟩ : Date) →
        ∃ c s e, Call.filterDate c s e ∈ (script P []).calls ∧ d.inRange s e ∧
          ∀ c2 s2 e2, Call.filterDate c2 s2 e2 ∈ (script P []).calls →
            d.inRange s2 e2 → s2 = s ∧ e2 = e) := by
  constructor
  · intro P1 P2 h1 h2 Y1 Y2 c1 c2 s1 e1 s2 e2 hm1 hm2
    have a1 := mem_exportYearlyVIIRS P1 h1 Y1 _ hm1
    have a2 := mem_exportYearlyVIIRS P2 h2 Y2 _ hm2
    simp only [yearCalls, List.mem_cons, List.mem_singleton, Call.filterDate.injEq,
      List.not_mem_nil, or_false, false_or, reduceCtorEq] at a1 a2
    obtain ⟨_, hs1, he1⟩ := a1
    obtain ⟨_, hs2, he2⟩ := a2
    subst hs1 he1 hs2 he2
    constructor
    · intro hY; rw [hY]
    · intro hne d
      exact inRange_disjoint Y1 Y2 hne d
  · intro P hok d hlo hhi
    obtain ⟨Y, hYlo, hYhi, hin⟩ := inRange_cover 2014 2023 d hlo hhi
    have hY : Y ∈ years := (mem_years Y).mpr ⟨hYlo, hYhi⟩
    refine ⟨viirsCollection, ⟨Y, 1, 1⟩, ⟨Y + 1, 1, 1⟩, ?_, hin, ?_⟩
    · rw [script_calls_ok P hok, List.mem_flatMap]
      exact ⟨Y, hY, by simp [yearCalls]⟩
    · intro c2 s2 e2 hmem hin2
      obtain ⟨Y2, _, hs2, he2⟩ := mem_script_filterDate P c2 s2 e2 hmem
      subst hs2 he2
      by_cases hYY : Y = Y2
      · subst hYY; exact ⟨rfl, rfl⟩
      · exact absurd ⟨hin, hin2⟩ (inRange_disjoint Y Y2 hYY d)

theorem date_ranges_tile_witness :
    ¬ ((⟨2015, 1, 1⟩ : Date).inRange ⟨2014, 1, 1⟩ ⟨2015, 1, 1⟩ ∧
        (⟨2015, 1, 1⟩ : Date).inRange ⟨2015, 1, 1⟩ ⟨2016, 1, 1⟩) :=
  (date_ranges_tile.1 reliable reliable [] [] 2014 2015 viirsCollection viirsCollection
      ⟨2014, 1, 1⟩ ⟨2015, 1, 1⟩ ⟨2015, 1, 1⟩ ⟨2016, 1, 1⟩ (by decide) (by decide)).2
    (by decide) ⟨2015, 1, 1⟩

end EarthEngine
